import Mathlib

/-!
Shallow embedding of the rainbow-table implementation (src/lib.rs and
src/main.rs).  Bytes are `Nat` values (< 256 where it matters); the Rust
machine integers u64 and u128 are modelled as `Nat` with explicit reductions
modulo `2 ^ 64` and `2 ^ 128` at the points where the source wraps.  The MD5
digest function is an external collaborator of the crate and is modelled as a
function parameter `digest`.  Byte streams are `List Nat`.
-/

namespace Rainbow

/-- Little-endian value of a byte list, as in `u128::from_le_bytes` and the
little-endian integer readers. -/
def leVal : List Nat → Nat
  | [] => 0
  | b :: rest => b + 256 * leVal rest

/-- Low `n` bytes of `v`, little-endian, as in `u128::to_le_bytes` and the
little-endian integer writers. -/
def leBytes : Nat → Nat → List Nat
  | 0, _ => []
  | n + 1, v => v % 256 :: leBytes n (v / 256)

/-- Sixty-four-symbol alphabet `TABLE` from `Table::reduce`: the bytes of
`a`..`z`, `A`..`Z`, `0`..`9`, `_`, `.` in that order. -/
def ALPHABET : List Nat :=
  [97, 98, 99, 100, 101, 102, 103, 104, 105, 106, 107, 108, 109,
   110, 111, 112, 113, 114, 115, 116, 117, 118, 119, 120, 121, 122,
   65, 66, 67, 68, 69, 70, 71, 72, 73, 74, 75, 76, 77,
   78, 79, 80, 81, 82, 83, 84, 85, 86, 87, 88, 89, 90,
   48, 49, 50, 51, 52, 53, 54, 55, 56, 57, 95, 46]

/-- Release-build value of the u128 expression `(1 << (8 * P)) - 1` in
`Table::reduce`: with overflow checks off, Rust masks the shift amount by the
bit width, so for `8 * P = 128` the computed mask is `2 ^ 0 - 1 = 0` rather
than `2 ^ 128 - 1`.  In a debug build the same shift panics with an
arithmetic-overflow error; see `reduceOverflows`. -/
def mask128 (P : Nat) : Nat := 2 ^ (8 * P % 128) - 1

/-- Debug-build arithmetic-overflow condition inside `Table::reduce`: the
shift `1 << (8 * P)` overflows when `8 * P` reaches the u128 bit width, and
the addition `reduction as u128 + hash` overflows when the mathematical sum
reaches `2 ^ 128`. -/
def reduceOverflows (P step : Nat) (hash : List Nat) : Bool :=
  decide (128 ≤ 8 * P) || decide (2 ^ 128 ≤ step + leVal hash)

/-- `Table::reduce` (src/lib.rs lines 206-227): add the reduction index to the
digest read as a little-endian u128 (wrapping modulo `2 ^ 128`), mask with
`(1 << (8 * P)) - 1`, then map the low six bits of each of the low `P` bytes
through the 64-entry alphabet.  The `reduced` array has `P` slots and is
zipped against the 16 bytes of `pass`, so exactly `min P 16` bytes are
converted. -/
def reduce (P step : Nat) (hash : List Nat) : List Nat :=
  let pass := (step + leVal hash) % 2 ^ 128 &&& mask128 P
  ((leBytes 16 pass).take P).map fun b => ALPHABET.getD (b &&& 63) 0

/-- `Chain<P>` from src/lib.rs: the first plaintext of the chain and the final
hash value. -/
structure Chain where
  pass : List Nat
  hash : List Nat
deriving DecidableEq

/-- `Table<P>` from src/lib.rs: chain length plus the endpoint-keyed chain
map.  The const-generic plaintext length `P` is carried as the field `plen`;
the `HashMap<[u8; 16], [u8; P]>` is modelled as a key-distinct association
list from endpoint hashes to stored head passes. -/
structure Table where
  plen : Nat
  length : Nat
  chains : List (List Nat × List Nat)
deriving DecidableEq

/-- Lookup in the association-list model of the hash map: the most recently
inserted binding of a key sits closest to the head. -/
def lookupAL (k : List Nat) : List (List Nat × List Nat) → Option (List Nat)
  | [] => none
  | p :: rest => if p.1 = k then some p.2 else lookupAL k rest

/-- Removal of every binding of a key, used by `insertAL`. -/
def eraseKey (k : List Nat) : List (List Nat × List Nat) → List (List Nat × List Nat)
  | [] => []
  | p :: rest => if p.1 = k then eraseKey k rest else p :: eraseKey k rest

/-- `HashMap::insert`: any previous binding of the key is replaced (last write
wins). -/
def insertAL (m : List (List Nat × List Nat)) (k v : List Nat) :
    List (List Nat × List Nat) :=
  (k, v) :: eraseKey k m

/-- `Read::read_exact` on a byte stream: take exactly `n` bytes or fail with
an unexpected-end-of-file error. -/
def readExact (n : Nat) (l : List Nat) : Option (List Nat × List Nat) :=
  if n ≤ l.length then some (l.take n, l.drop n) else none

/-- `read_u64::<LittleEndian>`: consume 8 bytes and read them little-endian. -/
def readU64 (l : List Nat) : Option (Nat × List Nat) :=
  (readExact 8 l).map fun p => (leVal p.1, p.2)

/-- Record-reading loop of `Table::read`: `chain_count` records, each of `P`
pass bytes followed by 16 hash bytes, inserted into the map in stream order. -/
def readChains (P : Nat) : Nat → List Nat → List (List Nat × List Nat) →
    Option (List (List Nat × List Nat) × List Nat)
  | 0, l, acc => some (acc, l)
  | n + 1, l, acc => do
    let (pass, l1) ← readExact P l
    let (hash, l2) ← readExact 16 l1
    readChains P n l2 (insertAL acc hash pass)

/-- `Table::read` (src/lib.rs lines 37-55): parse the two 8-byte little-endian
header fields, then `chain_count` records; bytes after the last record are
ignored. -/
def Table.read (P : Nat) (l : List Nat) : Option Table := do
  let (chainCount, l1) ← readU64 l
  let (chainLength, l2) ← readU64 l1
  let (chains, _) ← readChains P chainCount l2 []
  some { plen := P, length := chainLength, chains := chains }

/-- Iterated reduce-then-digest rounds: starting from reduction index `start`,
perform `n` rounds of `hash := digest (reduce P index hash)` with the index
incrementing each round.  This is the loop shared by the producer closure in
`Table::write` (with `start = 0`) and the simulation loop in `Table::get`. -/
def stepRange (digest : List Nat → List Nat) (P : Nat) :
    Nat → Nat → List Nat → List Nat
  | _, 0, hash => hash
  | start, n + 1, hash => stepRange digest P (start + 1) n (digest (reduce P start hash))

/-- Producer computation of `Table::write` (src/lib.rs lines 110-119): digest
the seed, run `length` reduce/digest rounds, and record the seed together with
the final hash. -/
def genChain (digest : List Nat → List Nat) (P length : Nat) (seed : List Nat) : Chain :=
  { pass := seed, hash := stepRange digest P 0 length (digest seed) }

/-- Byte stream produced by a fully successful `Table::write` run: the two
8-byte little-endian header fields (seed count and chain length) followed by
the pass and hash bytes of each chain in channel-arrival order. -/
def writeBytes (seedCount length : Nat) (arrivals : List Chain) : List Nat :=
  leBytes 8 seedCount ++ leBytes 8 length ++ (arrivals.map fun c => c.pass ++ c.hash).flatten

/-- Fallible byte sink modelling the `W: io::Write` argument of
`Table::write`: writes succeed while the byte budget lasts and fail with an
I/O error afterwards. -/
structure Sink where
  budget : Nat
  log : List Nat
deriving DecidableEq

/-- `write_all` on the model sink; `none` models an I/O error. -/
def Sink.writeAll (s : Sink) (bytes : List Nat) : Option Sink :=
  if bytes.length ≤ s.budget then
    some { budget := s.budget - bytes.length, log := s.log ++ bytes }
  else none

/-- Chain-writing loop of the writer thread: returns the thread result (`none`
after an I/O error) and how many chains were received from the channel before
the thread exited. -/
def writeChains (s : Sink) : List Chain → Option Sink × Nat
  | [] => (some s, 0)
  | c :: rest =>
    match (s.writeAll c.pass).bind fun s1 => s1.writeAll c.hash with
    | none => (none, 1)
    | some s2 =>
      let r := writeChains s2 rest
      (r.1, r.2 + 1)

/-- Writer thread of `Table::write` (src/lib.rs lines 79-102): write the two
header fields, then every chain received from the channel, stopping at the
first I/O error.  The `io::Result` it returns is the first component;
`Table::write` drops the join handle without inspecting it. -/
def writerThread (s : Sink) (seedCount length : Nat) (arrivals : List Chain) :
    Option Sink × Nat :=
  match s.writeAll (leBytes 8 seedCount) with
  | none => (none, 0)
  | some s1 =>
    match s1.writeAll (leBytes 8 length) with
    | none => (none, 0)
    | some s2 => writeChains s2 arrivals

/-- Caller-observed outcome of `Table::write` (src/lib.rs lines 72-125): the
writer thread's `io::Result` is never joined, so whenever the call returns it
returns `Ok(())`, modelled as `some ()`.  The `none` case models the
process-aborting panic raised through the send `expect` when the writer
stopped early while producers still had chains to deliver. -/
def Table.write (s : Sink) (seeds : List (List Nat)) (length : Nat)
    (arrivals : List Chain) : Option Unit :=
  let r := writerThread s seeds.length length arrivals
  if r.1 = none ∧ r.2 < arrivals.length then none else some ()

/-- Loop of `Table::walk` (src/lib.rs lines 183-195): compare the current hash
with the target before each of the `length` reduction rounds and return the
pass that produced it on a match.  The hash computed by the final round is
never compared. -/
def walkAux (digest : List Nat → List Nat) (P : Nat) (target : List Nat) :
    Nat → Nat → List Nat → List Nat → Option (List Nat)
  | _, 0, _, _ => none
  | r, n + 1, pass, hash =>
    if hash = target then some pass
    else walkAux digest P target (r + 1) n (reduce P r hash) (digest (reduce P r hash))

/-- `Table::walk`: start from the stored head pass and its digest. -/
def Table.walk (t : Table) (digest : List Nat → List Nat) (pass target : List Nat) :
    Option (List Nat) :=
  walkAux digest t.plen target 0 t.length pass (digest pass)

/-- One candidate start position inside `Table::get`: run the simulation loop
from `start`, look the simulated endpoint up among the stored chains, and
confirm via `Table::walk`. -/
def tryStart (digest : List Nat → List Nat) (t : Table) (target : List Nat)
    (start : Nat) : Option (List Nat) :=
  (lookupAL (stepRange digest t.plen start (t.length - start) target) t.chains).bind
    fun pass => t.walk digest pass target

/-- `Table::get` (src/lib.rs lines 150-168): try the start positions
`length`, `length - 1`, ..., `0`.  The Rust code uses `find_map_any` over a
parallel iterator; the descending order here is the iterator's sequential
order, and the soundness proof below relies only on list membership, which
covers every parallel schedule. -/
def Table.get (t : Table) (digest : List Nat → List Nat) (target : List Nat) :
    Option (List Nat) :=
  ((List.range (t.length + 1)).reverse).findSome? (tryStart digest t target)

/-- `u128::to_be_bytes`. -/
def beBytes (n v : Nat) : List Nat := (leBytes n v).reverse

/-- `from_hex` in src/main.rs (lines 54-60), after `u128::from_str_radix` has
parsed the hexadecimal string to the value `v`: the value is serialized with
`u128::to_be_bytes`. -/
def from_hex (v : Nat) : List Nat := beBytes 16 v

/-- Reference byte swap of an `n`-byte value: the least significant byte moves
to the most significant position. -/
def byteSwap : Nat → Nat → Nat
  | 0, _ => 0
  | n + 1, v => v % 256 * 2 ^ (8 * n) + byteSwap n (v / 256)

/-- Reduction algorithm exactly as the specification words it (section 4.1):
interpret the digest as a little-endian 128-bit integer, add the step, keep
only the low `8 * P` bits, serialize the low `P` bytes little-endian, and map
the low six bits of each byte through the fixed alphabet. -/
def specReduce (P step : Nat) (hash : List Nat) : List Nat :=
  (leBytes P ((step + leVal hash) % 2 ^ (8 * P))).map fun b => ALPHABET.getD (b % 64) 0

/-- Endpoint recurrence exactly as the chain-generation claim words it:
`hash := digest seed`, then for `step` in `0..L` set
`hash := digest (reduce step hash)`. -/
def specEndpoint (digest : List Nat → List Nat) (P L : Nat) (seed : List Nat) :
    List Nat :=
  (List.range L).foldl (fun hash step => digest (reduce P step hash)) (digest seed)

/-- Concrete stand-in digest used by witnesses and counterexamples: the MD5
collaborator is a black box, so the properties at issue are instantiated at
the constant all-zero digest. -/
def zeroDigest : List Nat → List Nat := fun _ => List.replicate 16 0

/-- Endpoint-keyed map obtained by inserting a list of chains in order, as the
record loop of `Table::read` does. -/
def insertChains (acc : List (List Nat × List Nat)) (l : List Chain) :
    List (List Nat × List Nat) :=
  l.foldl (fun a c => insertAL a c.hash c.pass) acc

/-- Head pass of the last record in stream order whose endpoint hash equals
`k`, the value the last-write-wins collision policy is required to keep. -/
def lastPassFor (k : List Nat) : List Chain → Option (List Nat)
  | [] => none
  | c :: rest =>
    match lastPassFor k rest with
    | some v => some v
    | none => if c.hash = k then some c.pass else none

theorem leBytes_length (n v : Nat) : (leBytes n v).length = n := by
  induction n generalizing v with
  | zero => rfl
  | succ n ih => simp [leBytes, ih]

theorem leBytes_lt (n v : Nat) : ∀ b ∈ leBytes n v, b < 256 := by
  induction n generalizing v with
  | zero => simp [leBytes]
  | succ n ih =>
    intro b hb
    rcases List.mem_cons.mp hb with h | h
    · subst h; exact Nat.mod_lt _ (by norm_num)
    · exact ih (v / 256) b h

theorem leVal_leBytes {n v : Nat} (h : v < 2 ^ (8 * n)) : leVal (leBytes n v) = v := by
  induction n generalizing v with
  | zero =>
    simp only [leBytes, leVal]
    omega
  | succ n ih =>
    have e : 2 ^ (8 * (n + 1)) = 2 ^ (8 * n) * 256 := by
      rw [show 8 * (n + 1) = 8 * n + 8 from by ring, pow_add]
      norm_num
    rw [e] at h
    have hdiv : v / 256 < 2 ^ (8 * n) := (Nat.div_lt_iff_lt_mul (by norm_num)).mpr h
    simp only [leBytes, leVal, ih hdiv]
    omega

theorem leBytes_leVal {l : List Nat} (hb : ∀ b ∈ l, b < 256) :
    leBytes l.length (leVal l) = l := by
  induction l with
  | nil => rfl
  | cons b rest ih =>
    have hb256 : b < 256 := hb b (List.mem_cons_self b rest)
    simp only [List.length_cons, leBytes, leVal]
    have h1 : (b + 256 * leVal rest) % 256 = b := by omega
    have h2 : (b + 256 * leVal rest) / 256 = leVal rest := by omega
    rw [h1, h2, ih fun x hx => hb x (List.mem_cons_of_mem _ hx)]

theorem leBytes_mod (n v : Nat) : leBytes n (v % 2 ^ (8 * n)) = leBytes n v := by
  induction n generalizing v with
  | zero => rfl
  | succ n ih =>
    have e : 2 ^ (8 * (n + 1)) = 256 * 2 ^ (8 * n) := by
      rw [show 8 * (n + 1) = 8 + 8 * n from by ring, pow_add]
      norm_num
    simp only [leBytes]
    have h1 : v % 2 ^ (8 * (n + 1)) % 256 = v % 256 :=
      Nat.mod_mod_of_dvd v ⟨2 ^ (8 * n), e⟩
    have h2 : v % 2 ^ (8 * (n + 1)) / 256 = v / 256 % 2 ^ (8 * n) := by
      rw [e, Nat.mod_mul_right_div_self]
    rw [h1, h2, ih]

theorem leBytes_take {P n : Nat} (h : P ≤ n) (v : Nat) :
    (leBytes n v).take P = leBytes P v := by
  induction P generalizing n v with
  | zero => simp [leBytes]
  | succ P ih =>
    obtain ⟨m, rfl⟩ : ∃ m, n = m + 1 := ⟨n - 1, by omega⟩
    simp only [leBytes, List.take_succ_cons]
    rw [ih (by omega)]

theorem leVal_append (xs ys : List Nat) :
    leVal (xs ++ ys) = leVal xs + 256 ^ xs.length * leVal ys := by
  induction xs with
  | nil => simp [leVal]
  | cons b rest ih =>
    simp only [List.cons_append, leVal, List.length_cons, List.append_eq, ih]
    ring

theorem leVal_reverse_leBytes (n v : Nat) :
    leVal ((leBytes n v).reverse) = byteSwap n v := by
  induction n generalizing v with
  | zero => rfl
  | succ n ih =>
    simp only [leBytes, byteSwap, List.reverse_cons, leVal_append, List.length_reverse,
      leBytes_length, ih, leVal]
    have e : (256 : Nat) ^ n = 2 ^ (8 * n) := by
      rw [show (256 : Nat) = 2 ^ 8 from by norm_num, ← pow_mul]
    rw [e]
    ring

theorem lookupAL_eraseKey_ne {j k : List Nat} (h : j ≠ k)
    (m : List (List Nat × List Nat)) :
    lookupAL j (eraseKey k m) = lookupAL j m := by
  induction m with
  | nil => rfl
  | cons p rest ih =>
    by_cases hpk : p.1 = k
    · have h1 : eraseKey k (p :: rest) = eraseKey k rest := by
        simp only [eraseKey, if_pos hpk]
      have h2 : lookupAL j (p :: rest) = lookupAL j rest := by
        simp only [lookupAL, if_neg (show ¬p.1 = j from fun hj => h (hj ▸ hpk ▸ rfl))]
      rw [h1, h2, ih]
    · have h1 : eraseKey k (p :: rest) = p :: eraseKey k rest := by
        simp only [eraseKey, if_neg hpk]
      rw [h1]
      by_cases hpj : p.1 = j
      · simp only [lookupAL, if_pos hpj]
      · simp only [lookupAL, if_neg hpj, ih]

theorem lookupAL_insertAL (j k v : List Nat) (m : List (List Nat × List Nat)) :
    lookupAL j (insertAL m k v) = if k = j then some v else lookupAL j m := by
  by_cases h : k = j
  · simp only [insertAL, lookupAL, if_pos h]
  · simp only [insertAL, lookupAL, if_neg h]
    exact lookupAL_eraseKey_ne (Ne.symm h) m

theorem lookupAL_mem {k v : List Nat} {m : List (List Nat × List Nat)}
    (h : lookupAL k m = some v) : (k, v) ∈ m := by
  induction m with
  | nil => simp [lookupAL] at h
  | cons p rest ih =>
    obtain ⟨a, b⟩ := p
    simp only [lookupAL] at h
    by_cases hp : a = k
    · rw [if_pos hp] at h
      obtain rfl := Option.some.inj h
      subst hp
      exact List.mem_cons_self _ _
    · rw [if_neg hp] at h
      exact List.mem_cons_of_mem _ (ih h)

theorem length_eraseKey_le (k : List Nat) (m : List (List Nat × List Nat)) :
    (eraseKey k m).length ≤ m.length := by
  induction m with
  | nil => simp [eraseKey]
  | cons p rest ih =>
    simp only [eraseKey, List.length_cons]
    by_cases hp : p.1 = k
    · rw [if_pos hp]; omega
    · rw [if_neg hp]; simp only [List.length_cons]; omega

theorem eraseKey_of_notMem {k : List Nat} {m : List (List Nat × List Nat)}
    (h : k ∉ m.map Prod.fst) : eraseKey k m = m := by
  induction m with
  | nil => rfl
  | cons p rest ih =>
    simp only [List.map_cons, List.mem_cons] at h
    push_neg at h
    have h1 : eraseKey k (p :: rest) = p :: eraseKey k rest := by
      simp only [eraseKey, if_neg (show ¬p.1 = k from fun hp => h.1 hp.symm)]
    rw [h1, ih h.2]

theorem mem_keys_eraseKey {x k : List Nat} {m : List (List Nat × List Nat)}
    (h : x ∈ (eraseKey k m).map Prod.fst) : x ∈ m.map Prod.fst := by
  induction m with
  | nil => simp [eraseKey] at h
  | cons p rest ih =>
    simp only [eraseKey] at h
    by_cases hp : p.1 = k
    · rw [if_pos hp] at h
      exact List.mem_cons_of_mem _ (ih h)
    · rw [if_neg hp] at h
      simp only [List.map_cons, List.mem_cons] at h ⊢
      rcases h with h | h
      · exact Or.inl h
      · exact Or.inr (ih h)

theorem insertChains_cons (acc : List (List Nat × List Nat)) (c : Chain)
    (rest : List Chain) :
    insertChains acc (c :: rest) = insertChains (insertAL acc c.hash c.pass) rest := rfl

theorem insertChains_length_le (l : List Chain) :
    ∀ acc, (insertChains acc l).length ≤ acc.length + l.length := by
  induction l with
  | nil => intro acc; simp [insertChains]
  | cons c rest ih =>
    intro acc
    have h1 : (insertAL acc c.hash c.pass).length ≤ acc.length + 1 := by
      have := length_eraseKey_le c.hash acc
      simp only [insertAL, List.length_cons]
      omega
    have h2 := ih (insertAL acc c.hash c.pass)
    rw [insertChains_cons]
    simp only [List.length_cons]
    omega

theorem insertChains_length_nodup (l : List Chain) :
    ∀ acc, (l.map Chain.hash).Nodup →
    (∀ c ∈ l, c.hash ∉ acc.map Prod.fst) →
    (insertChains acc l).length = acc.length + l.length := by
  induction l with
  | nil => intro acc _ _; simp [insertChains]
  | cons c rest ih =>
    intro acc hnd hdis
    simp only [List.map_cons, List.nodup_cons] at hnd
    have hnotin : c.hash ∉ acc.map Prod.fst := hdis c (List.mem_cons_self c rest)
    have hlen : (insertAL acc c.hash c.pass).length = acc.length + 1 := by
      simp [insertAL, eraseKey_of_notMem hnotin]
    have hdis2 : ∀ d ∈ rest, d.hash ∉ (insertAL acc c.hash c.pass).map Prod.fst := by
      intro d hd hmem
      simp only [insertAL, List.map_cons, List.mem_cons] at hmem
      rcases hmem with h | h
      · exact hnd.1 (h ▸ List.mem_map_of_mem Chain.hash hd)
      · exact hdis d (List.mem_cons_of_mem _ hd) (mem_keys_eraseKey h)
    rw [insertChains_cons, ih _ hnd.2 hdis2, hlen, List.length_cons]
    omega

theorem lookupAL_insertChains (k : List Nat) (l : List Chain) :
    ∀ acc, lookupAL k (insertChains acc l) =
      match lastPassFor k l with
      | some v => some v
      | none => lookupAL k acc := by
  induction l with
  | nil => intro acc; rfl
  | cons c rest ih =>
    intro acc
    rw [insertChains_cons, ih]
    simp only [lastPassFor]
    cases lastPassFor k rest with
    | some v => rfl
    | none =>
      simp only [lookupAL_insertAL]
      by_cases h : c.hash = k
      · rw [if_pos h, if_pos h]
      · rw [if_neg h, if_neg h]

theorem readExact_append {n : Nat} {l : List Nat} (h : l.length = n)
    (rest : List Nat) : readExact n (l ++ rest) = some (l, rest) := by
  subst h
  rw [readExact, if_pos (by simp), List.take_left, List.drop_left]

theorem readU64_append {v : Nat} (h : v < 2 ^ 64) (rest : List Nat) :
    readU64 (leBytes 8 v ++ rest) = some (v, rest) := by
  rw [readU64, readExact_append (leBytes_length 8 v)]
  simp [leVal_leBytes (show v < 2 ^ (8 * 8) from h)]

theorem readChains_spec (arrivals : List Chain) :
    ∀ (P : Nat) (acc : List (List Nat × List Nat)) (rest : List Nat),
    (∀ c ∈ arrivals, c.pass.length = P ∧ c.hash.length = 16) →
    readChains P arrivals.length
        ((arrivals.map fun c => c.pass ++ c.hash).flatten ++ rest) acc =
      some (insertChains acc arrivals, rest) := by
  induction arrivals with
  | nil => intro P acc rest _; simp [readChains, insertChains]
  | cons c t ih =>
    intro P acc rest hlen
    obtain ⟨hp, hh⟩ := hlen c (List.mem_cons_self c t)
    simp only [List.map_cons, List.flatten_cons, List.length_cons, readChains]
    rw [List.append_assoc, List.append_assoc, readExact_append hp]
    simp only [Option.bind_eq_bind, Option.some_bind]
    rw [readExact_append hh]
    simp only [Option.bind_eq_bind, Option.some_bind]
    rw [ih P _ rest fun d hd => hlen d (List.mem_cons_of_mem _ hd)]
    rfl

theorem reduce_length {P : Nat} (h : P ≤ 16) (step : Nat) (hash : List Nat) :
    (reduce P step hash).length = P := by
  simp only [reduce, List.length_map, List.length_take, leBytes_length]
  omega

theorem reduce_mem_alphabet (P step : Nat) (hash : List Nat) :
    ∀ b ∈ reduce P step hash, b ∈ ALPHABET := by
  intro b hb
  simp only [reduce, List.mem_map] at hb
  obtain ⟨c, _, rfl⟩ := hb
  have hlt : c &&& 63 < 64 := by
    have := Nat.and_le_right (n := c) (m := 63)
    omega
  have hlen : (ALPHABET : List Nat).length = 64 := by rfl
  rw [List.getD_eq_getElem ALPHABET 0 (by omega)]
  exact List.getElem_mem _

theorem mask128_of_le {P : Nat} (h : P ≤ 15) : mask128 P = 2 ^ (8 * P) - 1 := by
  rw [mask128, Nat.mod_eq_of_lt (by omega)]

theorem reduce_eq_specReduce {P : Nat} (h : P ≤ 15) (step : Nat)
    (hash : List Nat) : reduce P step hash = specReduce P step hash := by
  simp only [reduce, specReduce, mask128_of_le h]
  have h1 : (step + leVal hash) % 2 ^ 128 &&& 2 ^ (8 * P) - 1
      = (step + leVal hash) % 2 ^ (8 * P) := by
    rw [Nat.and_pow_two_sub_one_eq_mod,
      Nat.mod_mod_of_dvd _ (pow_dvd_pow 2 (by omega))]
  rw [h1, leBytes_take (show P ≤ 16 by omega)]
  refine List.map_congr_left fun b hb => ?_
  rw [show (63 : Nat) = 2 ^ 6 - 1 from rfl, Nat.and_pow_two_sub_one_eq_mod]

theorem walkAux_sound (digest : List Nat → List Nat) (P : Nat)
    (target : List Nat) (n : Nat) :
    ∀ (r : Nat) (pass q : List Nat),
    walkAux digest P target r n pass (digest pass) = some q →
    digest q = target := by
  induction n with
  | zero => intro r pass q h; simp [walkAux] at h
  | succ n ih =>
    intro r pass q h
    simp only [walkAux] at h
    by_cases he : digest pass = target
    · rw [if_pos he] at h
      obtain rfl := Option.some.inj h
      exact he
    · rw [if_neg he] at h
      exact ih (r + 1) (reduce P r (digest pass)) q h

theorem walkAux_shape (digest : List Nat → List Nat) (P : Nat)
    (target : List Nat) (n : Nat) :
    ∀ (r : Nat) (pass hash q : List Nat),
    walkAux digest P target r n pass hash = some q →
    q = pass ∨ ∃ i h2, q = reduce P i h2 := by
  induction n with
  | zero => intro r pass hash q h; simp [walkAux] at h
  | succ n ih =>
    intro r pass hash q h
    simp only [walkAux] at h
    by_cases he : hash = target
    · rw [if_pos he] at h
      exact Or.inl (Option.some.inj h).symm
    · rw [if_neg he] at h
      rcases ih (r + 1) (reduce P r hash) (digest (reduce P r hash)) q h with h1 | h1
      · exact Or.inr ⟨r, hash, h1⟩
      · exact Or.inr h1

theorem stepRange_digest_length (digest : List Nat → List Nat) (P : Nat)
    (Hdig : ∀ x, (digest x).length = 16) (n : Nat) :
    ∀ (start : Nat) (s : List Nat),
    (stepRange digest P start n (digest s)).length = 16 := by
  induction n with
  | zero => intro start s; exact Hdig s
  | succ n ih =>
    intro start s
    simp only [stepRange]
    exact ih (start + 1) (reduce P start (digest s))

theorem stepRange_eq_foldl (digest : List Nat → List Nat) (P : Nat) (n : Nat) :
    ∀ (start : Nat) (h : List Nat),
    stepRange digest P start n h =
      (List.range' start n).foldl (fun hash step => digest (reduce P step hash)) h := by
  induction n with
  | zero => intro start h; rfl
  | succ n ih =>
    intro start h
    rw [stepRange, List.range'_succ, List.foldl_cons, ih]

theorem genChain_eq_spec (digest : List Nat → List Nat) (P L : Nat)
    (s : List Nat) :
    genChain digest P L s = { pass := s, hash := specEndpoint digest P L s } := by
  rw [genChain, specEndpoint, stepRange_eq_foldl, List.range_eq_range']

/-- Claim C1 (confirmed): lookup soundness.  For every table whose stored
passes have the table's plaintext length (and plaintext length at most 16, as
the source asserts) and every target digest, if `Table::get` returns
`some p` then `digest p = target` exactly, and `p` is a `P`-byte preimage.
The proof uses only membership in the list of start positions, so it covers
every schedule of the parallel `find_map_any`. -/
theorem get_sound (digest : List Nat → List Nat) (t : Table)
    (target p : List Nat)
    (Hwf : ∀ pr ∈ t.chains, pr.2.length = t.plen)
    (HP : t.plen ≤ 16)
    (H : t.get digest target = some p) :
    digest p = target ∧ p.length = t.plen := by
  rw [Table.get] at H
  obtain ⟨start, hmem, htry⟩ := List.exists_of_findSome?_eq_some H
  rw [tryStart] at htry
  obtain ⟨pass0, hlook, hwalk⟩ := Option.bind_eq_some.mp htry
  rw [Table.walk] at hwalk
  refine ⟨walkAux_sound digest t.plen target t.length 0 pass0 p hwalk, ?_⟩
  rcases walkAux_shape digest t.plen target t.length 0 pass0 (digest pass0) p hwalk
    with rfl | ⟨i, h2, rfl⟩
  · exact Hwf _ (lookupAL_mem hlook)
  · exact reduce_length HP i h2

/-- Witness for `get_sound`: a concrete one-chain table of chain length 1
under the constant zero digest, where lookup of the zero digest succeeds. -/
theorem get_sound_witness :
    zeroDigest [0] = List.replicate 16 0 ∧ ([0] : List Nat).length = 1 :=
  get_sound zeroDigest ⟨1, 1, [(List.replicate 16 0, [0])]⟩ (List.replicate 16 0)
    [0] (by decide) (by decide) (by decide)

/-- Claim C2 (code_bug): with chain length 0, building a table from the
single seed list `[[0]]` and looking up the seed's digest returns `none`,
because the loop in `Table::walk` compares only the hashes before each of the
`length` reduction rounds and never the final (endpoint) hash; the claim, the
spec's zero-step property, and the case analysis in the comment on
`Table::get` all require `some [0]`. -/
theorem lookup_zero_length_misses :
    Table.read 1 (writeBytes 1 0 [genChain zeroDigest 1 0 [0]]) =
      some ⟨1, 0, [(List.replicate 16 0, [0])]⟩ ∧
    Table.get ⟨1, 0, [(List.replicate 16 0, [0])]⟩ zeroDigest (zeroDigest [0]) =
      none := by
  decide

/-- Claim C3 (code_bug): at the supported boundary `P = 16` the mask
computation `(1 << (8 * P)) - 1` in `Table::reduce` overflows the u128 shift:
a debug build panics, and a release build masks the shift amount, producing
mask 0 instead of `2 ^ 128 - 1`, which collapses every reduction output to
the all-`a` plaintext. -/
theorem reduce_overflow_at_plen16 :
    reduceOverflows 16 0 (List.replicate 16 0) = true ∧
    mask128 16 = 0 ∧
    reduce 16 0 (1 :: List.replicate 15 0) = List.replicate 16 97 := by
  decide

/-- Claim C4 (code_bug): an I/O failure in the writer thread is not surfaced
to the caller.  With an empty seed list and a sink whose budget of 8 bytes
fails the second header write, the writer thread finishes with an I/O error,
yet `Table::write` reports success because the thread's `io::Result` is
dropped without being joined. -/
theorem write_swallows_writer_io_error :
    (writerThread ⟨8, []⟩ 0 5 []).1 = none ∧
    Table.write ⟨8, []⟩ [] 5 [] = some () := by
  decide

/-- Claim C6 (corrected), counterexample: at `P = 16` (a plaintext length the
table type accepts) the code's reduction differs from the spec's algorithm,
because the overflowing shift makes the computed mask 0. -/
theorem reduce_ne_spec_at_plen16 :
    reduce 16 0 (1 :: List.replicate 15 0) ≠
      specReduce 16 0 (1 :: List.replicate 15 0) := by
  decide

/-- Claim C6 (corrected, amended to plaintext lengths P ≤ 15): below the
broken `P = 16` boundary, `Table::reduce` equals the spec's algorithm
(little-endian 128-bit interpretation, add step, keep the low `8 * P` bits,
serialize the low `P` bytes little-endian, map the low six bits of each byte
through the alphabet), and the output has length exactly `P` with every byte
one of the 64 allowed symbols. -/
theorem reduce_matches_spec (P step : Nat) (hash : List Nat)
    (HP : P ≤ 15) (Hlen : hash.length = 16) (Hbytes : ∀ b ∈ hash, b < 256) :
    reduce P step hash = specReduce P step hash ∧
    (reduce P step hash).length = P ∧
    ∀ b ∈ reduce P step hash, b ∈ ALPHABET :=
  ⟨reduce_eq_specReduce HP step hash, reduce_length (by omega) step hash,
    reduce_mem_alphabet P step hash⟩

/-- Witness for `reduce_matches_spec` at `P = 1`, step 0, zero digest. -/
theorem reduce_matches_spec_witness :
    reduce 1 0 (List.replicate 16 0) = specReduce 1 0 (List.replicate 16 0) ∧
    (reduce 1 0 (List.replicate 16 0)).length = 1 ∧
    ∀ b ∈ reduce 1 0 (List.replicate 16 0), b ∈ ALPHABET :=
  reduce_matches_spec 1 0 (List.replicate 16 0) (by decide) (by decide)
    (by decide)

/-- Claim C9 (confirmed): `from_hex` produces a 16-byte array whose
little-endian interpretation — the order used by `Table::reduce` — equals the
byte swap of the parsed 128-bit value, i.e. the big-endian human-readable
digest is converted to the internal little-endian representation. -/
theorem from_hex_byteswap (v : Nat) (h : v < 2 ^ 128) :
    (from_hex v).length = 16 ∧ leVal (from_hex v) = byteSwap 16 v := by
  refine ⟨?_, ?_⟩
  · simp [from_hex, beBytes, leBytes_length]
  · rw [from_hex, beBytes]
    exact leVal_reverse_leBytes 16 v

/-- Witness for `from_hex_byteswap` at the value 0x102. -/
theorem from_hex_byteswap_witness :
    (from_hex 258).length = 16 ∧ leVal (from_hex 258) = byteSwap 16 258 :=
  from_hex_byteswap 258 (by norm_num)

/-- Claim C10 (confirmed): for plaintext lengths P with 1 ≤ P < 16, the
reduction depends only on the sum of the little-endian digest value and the
step, taken modulo `2 ^ (8 * P)` — the precise source of chain merges. -/
theorem reduce_congruence (P s1 s2 : Nat) (h1 h2 : List Nat)
    (HP1 : 1 ≤ P) (HP : P < 16)
    (Hl1 : h1.length = 16) (Hl2 : h2.length = 16)
    (Hcong : (leVal h1 + s1) % 2 ^ (8 * P) = (leVal h2 + s2) % 2 ^ (8 * P)) :
    reduce P s1 h1 = reduce P s2 h2 := by
  rw [reduce_eq_specReduce (by omega), reduce_eq_specReduce (by omega)]
  simp only [specReduce]
  rw [show s1 + leVal h1 = leVal h1 + s1 from by ring,
    show s2 + leVal h2 = leVal h2 + s2 from by ring, Hcong]

/-- Witness for `reduce_congruence`: the digests `[1, 0, ...]` at step 0 and
`[0, 1, 0, ...]` at step 1 agree modulo 256, so their reductions at `P = 1`
coincide. -/
theorem reduce_congruence_witness :
    reduce 1 0 (1 :: List.replicate 15 0) =
      reduce 1 1 (0 :: 1 :: List.replicate 14 0) :=
  reduce_congruence 1 0 1 (1 :: List.replicate 15 0)
    (0 :: 1 :: List.replicate 14 0) (by decide) (by decide) (by decide)
    (by decide) (by decide)

/-- Claim C7 (confirmed): chain-generation determinism.  Whatever order the
worker pool delivers chains in (any permutation of the per-seed results), the
multiset of (head, endpoint) pairs is the same across runs and equals exactly
the multiset of pairs given by the claim's recurrence for the endpoint. -/
theorem generation_deterministic (digest : List Nat → List Nat) (P L : Nat)
    (seeds : List (List Nat)) (arr1 arr2 : List Chain)
    (H1 : arr1.Perm (seeds.map (genChain digest P L)))
    (H2 : arr2.Perm (seeds.map (genChain digest P L))) :
    (arr1 : Multiset Chain) = (arr2 : Multiset Chain) ∧
    (arr1 : Multiset Chain) =
      ((seeds.map fun s => Chain.mk s (specEndpoint digest P L s)) : Multiset Chain) := by
  have hmap : seeds.map (genChain digest P L) =
      seeds.map fun s => Chain.mk s (specEndpoint digest P L s) :=
    List.map_congr_left fun s _ => genChain_eq_spec digest P L s
  refine ⟨Multiset.coe_eq_coe.mpr (H1.trans H2.symm), ?_⟩
  refine Multiset.coe_eq_coe.mpr (H1.trans ?_)
  rw [hmap]

/-- Witness for `generation_deterministic` over the seed list `[[0]]` with
chain length 1 under the constant zero digest. -/
theorem generation_deterministic_witness :
    (([genChain zeroDigest 1 1 [0]] : List Chain) : Multiset Chain) =
      (([genChain zeroDigest 1 1 [0]] : List Chain) : Multiset Chain) ∧
    (([genChain zeroDigest 1 1 [0]] : List Chain) : Multiset Chain) =
      (([[0]].map fun s => Chain.mk s (specEndpoint zeroDigest 1 1 s)) : Multiset Chain) :=
  generation_deterministic zeroDigest 1 1 [[0]] [genChain zeroDigest 1 1 [0]]
    [genChain zeroDigest 1 1 [0]] (by decide) (by decide)

/-- Claim C8 (confirmed): `Table::read` parses an 8-byte little-endian chain
count, an 8-byte little-endian chain length, then exactly `chain_count`
records of `P` preimage bytes followed by 16 endpoint bytes into an
endpoint-keyed map, without ever raising an error on endpoint collisions;
looking an endpoint up in the resulting map yields the pass of the last
record in stream order with that endpoint (last write wins). -/
theorem read_last_write_wins (P L : Nat) (records : List Chain) (k : List Nat)
    (Hrec : ∀ c ∈ records, c.pass.length = P ∧ c.hash.length = 16)
    (Hc : records.length < 2 ^ 64) (HL : L < 2 ^ 64) :
    Table.read P (writeBytes records.length L records) =
      some ⟨P, L, insertChains [] records⟩ ∧
    lookupAL k (insertChains [] records) = lastPassFor k records := by
  constructor
  · simp only [Table.read, writeBytes]
    rw [List.append_assoc, readU64_append Hc]
    simp only [Option.bind_eq_bind, Option.some_bind]
    rw [readU64_append HL]
    simp only [Option.bind_eq_bind, Option.some_bind]
    rw [show (records.map fun c => c.pass ++ c.hash).flatten
          = (records.map fun c => c.pass ++ c.hash).flatten ++ []
        from (List.append_nil _).symm,
      readChains_spec records P [] [] Hrec]
    simp only [Option.bind_eq_bind, Option.some_bind]
  · rw [lookupAL_insertChains]
    cases lastPassFor k records with
    | some v => rfl
    | none => rfl

/-- Witness for `read_last_write_wins`: two records with the same endpoint;
the lookup keeps the pass of the later record. -/
theorem read_last_write_wins_witness :
    Table.read 1 (writeBytes 2 0
        [⟨[1], List.replicate 16 0⟩, ⟨[2], List.replicate 16 0⟩]) =
      some ⟨1, 0, insertChains []
        [⟨[1], List.replicate 16 0⟩, ⟨[2], List.replicate 16 0⟩]⟩ ∧
    lookupAL (List.replicate 16 0) (insertChains []
        [⟨[1], List.replicate 16 0⟩, ⟨[2], List.replicate 16 0⟩]) =
      lastPassFor (List.replicate 16 0)
        [⟨[1], List.replicate 16 0⟩, ⟨[2], List.replicate 16 0⟩] :=
  read_last_write_wins 1 0
    [⟨[1], List.replicate 16 0⟩, ⟨[2], List.replicate 16 0⟩]
    (List.replicate 16 0) (by decide) (by decide) (by decide)

/-- Claim C5 (confirmed): a stream produced by a successful write of `seeds`
with chain length `L` reads back — for every channel-arrival order — to a
table whose chain length is `L`, whose stored-chain count is at most
`len seeds`, and exactly `len seeds` whenever no two generated chains share
an endpoint digest. -/
theorem read_write_roundtrip (digest : List Nat → List Nat) (P L : Nat)
    (seeds : List (List Nat)) (arrivals : List Chain)
    (Hdig : ∀ x, (digest x).length = 16)
    (Hseeds : ∀ s ∈ seeds, s.length = P)
    (Hperm : arrivals.Perm (seeds.map (genChain digest P L)))
    (Hcount : seeds.length < 2 ^ 64) (HL : L < 2 ^ 64) :
    Table.read P (writeBytes seeds.length L arrivals) =
      some ⟨P, L, insertChains [] arrivals⟩ ∧
    (insertChains [] arrivals).length ≤ seeds.length ∧
    (((seeds.map (genChain digest P L)).map Chain.hash).Nodup →
      (insertChains [] arrivals).length = seeds.length) := by
  have hlenarr : arrivals.length = seeds.length := by
    rw [Hperm.length_eq, List.length_map]
  have Hrec : ∀ c ∈ arrivals, c.pass.length = P ∧ c.hash.length = 16 := by
    intro c hc
    obtain ⟨s, hs, rfl⟩ := List.mem_map.mp (Hperm.mem_iff.mp hc)
    exact ⟨Hseeds s hs, stepRange_digest_length digest P Hdig L 0 s⟩
  refine ⟨?_, ?_, ?_⟩
  · simp only [Table.read, writeBytes]
    rw [List.append_assoc, readU64_append Hcount]
    simp only [Option.bind_eq_bind, Option.some_bind]
    rw [readU64_append HL]
    simp only [Option.bind_eq_bind, Option.some_bind]
    rw [← hlenarr,
      show (arrivals.map fun c => c.pass ++ c.hash).flatten
          = (arrivals.map fun c => c.pass ++ c.hash).flatten ++ []
        from (List.append_nil _).symm,
      readChains_spec arrivals P [] [] Hrec]
    simp only [Option.bind_eq_bind, Option.some_bind]
  · have h1 := insertChains_length_le arrivals []
    simp only [List.length_nil, Nat.zero_add] at h1
    rw [← hlenarr]
    exact h1
  · intro hnd
    have hnd2 : (arrivals.map Chain.hash).Nodup :=
      (Hperm.map Chain.hash).nodup_iff.mpr hnd
    have h2 := insertChains_length_nodup arrivals [] hnd2 (by intro c hc; simp)
    simp only [List.length_nil, Nat.zero_add] at h2
    rw [h2, hlenarr]

/-- Witness for `read_write_roundtrip` over the seed list `[[0]]` with chain
length 0 under the constant zero digest. -/
theorem read_write_roundtrip_witness :
    Table.read 1 (writeBytes ([[0]] : List (List Nat)).length 0
        [genChain zeroDigest 1 0 [0]]) =
      some ⟨1, 0, insertChains [] [genChain zeroDigest 1 0 [0]]⟩ ∧
    (insertChains [] [genChain zeroDigest 1 0 [0]]).length ≤
      ([[0]] : List (List Nat)).length ∧
    (((([[0]] : List (List Nat)).map (genChain zeroDigest 1 0)).map Chain.hash).Nodup →
      (insertChains [] [genChain zeroDigest 1 0 [0]]).length =
        ([[0]] : List (List Nat)).length) :=
  read_write_roundtrip zeroDigest 1 0 [[0]] [genChain zeroDigest 1 0 [0]]
    (fun x => by simp [zeroDigest]) (by decide) (by decide) (by decide)
    (by decide)

end Rainbow
